import Mathlib

/-!
Verification of the `my_synth` interactive tone generator (src/main.rs).

The development shallowly embeds the program's core:
* the note table and `note_to_frequency` (equal-tempered tuning, modelled in ℝ
  with `Real.rpow` for the `powf` call);
* the key dispatcher of `run` (octave shifting and frequency selection);
* the per-sample envelope/oscillator engine `next_value` (amplitude, the
  `releasing` flag, and the phase accumulator `sample_clock`), modelled over ℚ
  with the sine output in ℝ.

`f32` arithmetic is modelled by exact rational arithmetic; the Rust `%`
operator on floats (truncated remainder) is modelled by `rust_rem`.
-/

/-- The ordered note table `NOTE_MAPPING` from the source: pitch classes C=0 .. B=11. -/
def NOTE_MAPPING : List (String × ℤ) :=
  [("C", 0), ("C#", 1), ("D", 2), ("D#", 3), ("E", 4), ("F", 5),
   ("F#", 6), ("G", 7), ("G#", 8), ("A", 9), ("A#", 10), ("B", 11)]

/-- The key map `KEY_MAP` from the source: character to (note name, octave offset). -/
def KEY_MAP : List (Char × (String × ℤ)) :=
  [('a', ("C", 0)), ('w', ("C#", 0)), ('s', ("D", 0)), ('e', ("D#", 0)),
   ('d', ("E", 0)), ('f', ("F", 0)), ('t', ("F#", 0)), ('g', ("G", 0)),
   ('y', ("G#", 0)), ('h', ("A", 0)), ('u', ("A#", 0)), ('j', ("B", 0)),
   ('k', ("C", 1)), ('o', ("C#", 1)), ('l', ("D", 1))]

/-- The function `midi_to_freq` from the source: `440.0 * 2.0f64.powf((midi_note - 69) as f64 / 12.0)`. -/
noncomputable def midi_to_freq (midi_note : ℤ) : ℝ :=
  440 * (2 : ℝ) ^ ((((midi_note : ℝ)) - 69) / 12)

/-- The function `note_to_frequency` from the source: look the name up in `NOTE_MAPPING`
(defaulting to 0 when absent), form the MIDI note number, convert to Hz. -/
noncomputable def note_to_frequency (note : String) (octave : ℤ) : ℝ :=
  let relative_note_number :=
    ((NOTE_MAPPING.find? (fun p => p.1 == note)).map (fun p => p.2)).getD 0
  midi_to_freq (12 * (octave + 1) + relative_note_number)

/-- The constant `RELEASE_TIME_SECONDS` from the source. -/
def RELEASE_TIME_SECONDS : ℚ := 3.0

/-- The constant `target_amplitude` from `run`: the desired amplitude, 0.5. -/
def target_amplitude : ℚ := 0.5

/-- The constant `ramp_speed` from `run`: the per-sample attack increment, 0.01. -/
def ramp_speed : ℚ := 0.01

/-- The constant `release_ramp_speed` from `run`: `target_amplitude / (sample_rate * RELEASE_TIME_SECONDS)`. -/
def release_ramp_speed (sample_rate : ℚ) : ℚ :=
  target_amplitude / (sample_rate * RELEASE_TIME_SECONDS)

/-- Truncation toward zero on ℚ, the rounding used by Rust's `%` on floats. -/
def rat_trunc (x : ℚ) : ℤ :=
  if 0 ≤ x then ⌊x⌋ else -⌊-x⌋

/-- Rust's `%` on floats: the truncated remainder `x - y * trunc (x / y)`. -/
def rust_rem (x y : ℚ) : ℚ :=
  x - y * rat_trunc (x / y)

/-- The mutable state captured by the `next_value` closure in `run`:
`amplitude`, `releasing`, and the phase accumulator `sample_clock`. -/
structure EngineState where
  amplitude : ℚ
  releasing : Bool
  sample_clock : ℚ
deriving DecidableEq

/-- One step of the state updates performed by `next_value`, given the
frequency read from the shared slot this step.  Mirrors the source:
the attack branch for `freq > 0`, the release branch otherwise, then
`sample_clock = (sample_clock + 1.0) % sample_rate`. -/
def next_state (sample_rate : ℚ) (s : EngineState) (freq : ℚ) : EngineState :=
  if freq > 0 then
    { amplitude :=
        if s.amplitude < target_amplitude then s.amplitude + ramp_speed else s.amplitude,
      releasing := false,
      sample_clock := rust_rem (s.sample_clock + 1) sample_rate }
  else
    { amplitude :=
        if s.amplitude > 0 then s.amplitude - release_ramp_speed sample_rate else s.amplitude,
      releasing := if !s.releasing then true else s.releasing,
      sample_clock := rust_rem (s.sample_clock + 1) sample_rate }

/-- The sample returned by `next_value` on one step:
`(sample_clock * freq * 2.0 * PI / sample_rate).sin() * amplitude`,
computed from the already-updated state. -/
noncomputable def sample_value (sample_rate : ℚ) (s : EngineState) (freq : ℚ) : ℝ :=
  let t := next_state sample_rate s freq
  Real.sin ((t.sample_clock : ℝ) * (freq : ℝ) * 2 * Real.pi / (sample_rate : ℝ))
    * (t.amplitude : ℝ)

/-- Run the engine over a list of per-step frequency reads. -/
def run_engine (sample_rate : ℚ) (s : EngineState) (freqs : List ℚ) : EngineState :=
  freqs.foldl (next_state sample_rate) s

/-- The engine's initial state in `run`: amplitude 0.0, not releasing, clock 0. -/
def init_state : EngineState :=
  { amplitude := 0, releasing := false, sample_clock := 0 }

/-- The list of samples emitted over a list of per-step frequency reads. -/
noncomputable def sample_trace (sample_rate : ℚ) (s : EngineState) :
    List ℚ → List ℝ
  | [] => []
  | f :: fs =>
      sample_value sample_rate s f :: sample_trace sample_rate (next_state sample_rate s f) fs

/-- The dispatcher state mutated by the key loop in `run`:
the current octave and the shared requested frequency. -/
structure DispatchState where
  current_octave : ℤ
  frequency : ℝ

/-- A key event as seen by the dispatch loop. -/
inductive KeyEv where
  | char : Char → KeyEv
  | esc : KeyEv
  | other : KeyEv

/-- The key handling of the dispatch loop in `run`: space mutes, `z`/`x`
shift the octave within bounds, mapped note keys recompute the shared
frequency, anything else is ignored (`Esc` only exits the loop). -/
noncomputable def handle_key (ev : KeyEv) (s : DispatchState) : DispatchState :=
  match ev with
  | .char ' ' => { s with frequency := 0 }
  | .char 'z' =>
      { s with current_octave :=
          if s.current_octave > 0 then s.current_octave - 1 else s.current_octave }
  | .char 'x' =>
      { s with current_octave :=
          if s.current_octave < 8 then s.current_octave + 1 else s.current_octave }
  | .char c =>
      match KEY_MAP.lookup c with
      | some (note, octave_offset) =>
          { s with frequency := note_to_frequency note (s.current_octave + octave_offset) }
      | none => s
  | .esc => s
  | .other => s

/-- The dispatcher's initial state in `run`: octave 3, frequency 0.0. -/
noncomputable def init_dispatch : DispatchState :=
  { current_octave := 3, frequency := 0 }

/-- The engine state with the `releasing` flag removed; used to compare the
source engine against a flag-free variant (claim C10). -/
structure EngineStateNR where
  amplitude : ℚ
  sample_clock : ℚ
deriving DecidableEq

/-- One step of the flag-free engine: identical to `next_state` except that
the `releasing` flag and its updates are removed. -/
def next_state_nr (sample_rate : ℚ) (s : EngineStateNR) (freq : ℚ) : EngineStateNR :=
  if freq > 0 then
    { amplitude :=
        if s.amplitude < target_amplitude then s.amplitude + ramp_speed else s.amplitude,
      sample_clock := rust_rem (s.sample_clock + 1) sample_rate }
  else
    { amplitude :=
        if s.amplitude > 0 then s.amplitude - release_ramp_speed sample_rate else s.amplitude,
      sample_clock := rust_rem (s.sample_clock + 1) sample_rate }

/-- The sample emitted by the flag-free engine on one step. -/
noncomputable def sample_value_nr (sample_rate : ℚ) (s : EngineStateNR) (freq : ℚ) : ℝ :=
  let t := next_state_nr sample_rate s freq
  Real.sin ((t.sample_clock : ℝ) * (freq : ℝ) * 2 * Real.pi / (sample_rate : ℝ))
    * (t.amplitude : ℝ)

/-- The list of samples emitted by the flag-free engine. -/
noncomputable def sample_trace_nr (sample_rate : ℚ) (s : EngineStateNR) :
    List ℚ → List ℝ
  | [] => []
  | f :: fs =>
      sample_value_nr sample_rate s f ::
        sample_trace_nr sample_rate (next_state_nr sample_rate s f) fs

/-! ### Basic lemmas about the engine step -/

lemma target_amplitude_eq : target_amplitude = 1 / 2 := by
  norm_num [target_amplitude]

lemma ramp_speed_eq : ramp_speed = 1 / 100 := by
  norm_num [ramp_speed]

lemma run_engine_nil (sr : ℚ) (s : EngineState) : run_engine sr s [] = s := rfl

lemma run_engine_cons (sr : ℚ) (s : EngineState) (f : ℚ) (fs : List ℚ) :
    run_engine sr s (f :: fs) = run_engine sr (next_state sr s f) fs := rfl

lemma run_engine_append (sr : ℚ) (s : EngineState) (l1 l2 : List ℚ) :
    run_engine sr s (l1 ++ l2) = run_engine sr (run_engine sr s l1) l2 :=
  List.foldl_append _ _ _ _

lemma next_state_amplitude_of_pos (sr : ℚ) (s : EngineState) (f : ℚ) (hf : 0 < f) :
    (next_state sr s f).amplitude =
      if s.amplitude < target_amplitude then s.amplitude + ramp_speed else s.amplitude := by
  simp [next_state, hf]

lemma next_state_amplitude_of_nonpos (sr : ℚ) (s : EngineState) (f : ℚ) (hf : ¬ 0 < f) :
    (next_state sr s f).amplitude =
      if 0 < s.amplitude then s.amplitude - release_ramp_speed sr else s.amplitude := by
  simp [next_state, hf]

lemma next_state_clock (sr : ℚ) (s : EngineState) (f : ℚ) :
    (next_state sr s f).sample_clock = rust_rem (s.sample_clock + 1) sr := by
  by_cases h : f > 0 <;> simp [next_state, h]

lemma release_ramp_speed_pos (sr : ℚ) (hsr : 0 < sr) : 0 < release_ramp_speed sr := by
  rw [release_ramp_speed, target_amplitude_eq, RELEASE_TIME_SECONDS]
  positivity

/-! ### Amplitude with a continuously held note (attack phase) -/

lemma run_engine_amplitude_all_pos (sr : ℚ) (fs : List ℚ) (hfs : ∀ f ∈ fs, 0 < f) :
    (run_engine sr init_state fs).amplitude = min ((fs.length : ℚ) / 100) (1 / 2) := by
  induction fs using List.reverseRecOn with
  | nil => simp [run_engine_nil, init_state]
  | append_singleton fs f ih =>
      have hf : 0 < f := hfs f (by simp)
      have hamp := ih (fun g hg => hfs g (by simp [hg]))
      rw [run_engine_append, run_engine_cons, run_engine_nil,
        next_state_amplitude_of_pos _ _ _ hf, hamp]
      have hlen : (((fs ++ [f]).length : ℕ) : ℚ) = (fs.length : ℚ) + 1 := by
        push_cast [List.length_append, List.length_singleton]
        ring
      rw [hlen, target_amplitude_eq, ramp_speed_eq]
      rcases lt_or_le ((fs.length : ℚ) / 100) (1 / 2) with h | h
      · have h50 : (fs.length : ℚ) < 50 := by linarith
        have h50n : fs.length < 50 := by exact_mod_cast h50
        have h50n1 : (fs.length : ℚ) + 1 ≤ 50 := by
          have : fs.length + 1 ≤ 50 := h50n
          exact_mod_cast this
        rw [min_eq_left h.le, if_pos h, min_eq_left (by linarith)]
        ring
      · rw [min_eq_right h, if_neg (by norm_num), min_eq_right (by linarith)]

/-! ### Amplitude during release (frequency 0) -/

lemma run_engine_drain_exact (sr : ℚ) (hsr : 0 < sr) :
    ∀ (j : ℕ) (s : EngineState) (m : ℕ), s.amplitude = m * release_ramp_speed sr → j ≤ m →
      (run_engine sr s (List.replicate j 0)).amplitude = ((m - j : ℕ) : ℚ) * release_ramp_speed sr := by
  intro j
  induction j with
  | zero => intro s m hs _; simpa [run_engine_nil] using hs
  | succ j ih =>
      intro s m hs hj
      obtain ⟨m', rfl⟩ : ∃ m', m = m' + 1 := ⟨m - 1, by omega⟩
      have hrs := release_ramp_speed_pos sr hsr
      have hpos : 0 < s.amplitude := by
        rw [hs]; positivity
      rw [List.replicate_succ, run_engine_cons,
        show (run_engine sr (next_state sr s 0) (List.replicate j 0)).amplitude
            = ((m' - j : ℕ) : ℚ) * release_ramp_speed sr from
          ih (next_state sr s 0) m'
            (by
              rw [next_state_amplitude_of_nonpos _ _ _ (by norm_num), if_pos hpos, hs]
              push_cast
              ring)
            (by omega)]
      have hj2 : m' + 1 - (j + 1) = m' - j := by omega
      rw [hj2]

lemma run_engine_drain_zero (sr : ℚ) (hsr : 0 < sr) :
    ∀ (j : ℕ) (s : EngineState) (m : ℕ), s.amplitude = m * release_ramp_speed sr → m ≤ j →
      (run_engine sr s (List.replicate j 0)).amplitude = 0 := by
  intro j
  induction j with
  | zero =>
      intro s m hs hm
      obtain rfl : m = 0 := by omega
      simpa [run_engine_nil] using hs
  | succ j ih =>
      intro s m hs hm
      rcases Nat.eq_zero_or_pos m with rfl | hmpos
      · have hz : s.amplitude = 0 := by simpa using hs
        rw [List.replicate_succ, run_engine_cons]
        refine ih (next_state sr s 0) 0 ?_ (by omega)
        rw [next_state_amplitude_of_nonpos _ _ _ (by norm_num), hz]
        simp
      · obtain ⟨m', rfl⟩ : ∃ m', m = m' + 1 := ⟨m - 1, by omega⟩
        have hrs := release_ramp_speed_pos sr hsr
        have hpos : 0 < s.amplitude := by
          rw [hs]; positivity
        rw [List.replicate_succ, run_engine_cons]
        refine ih (next_state sr s 0) m' ?_ (by omega)
        rw [next_state_amplitude_of_nonpos _ _ _ (by norm_num), if_pos hpos, hs]
        push_cast
        ring

/-! ### Reachable amplitudes at sample rates that are multiples of 50

At `sample_rate = 50 * k` the release step is `1 / (300 * k)` and the attack
step `1 / 100` equals `3 * k` release steps, so every reachable amplitude is a
natural multiple of the release step, bounded by `153 * k` such steps. -/

lemma release_ramp_speed_50k (k : ℕ) (hk : 0 < k) :
    release_ramp_speed (50 * (k : ℚ)) = 1 / (300 * (k : ℚ)) := by
  have hkq : ((k : ℚ)) ≠ 0 := by exact_mod_cast hk.ne'
  rw [release_ramp_speed, target_amplitude_eq, RELEASE_TIME_SECONDS]
  rw [div_eq_div_iff (by positivity) (by positivity)]
  ring

lemma amp_inv_step (k : ℕ) (hk : 0 < k) (s : EngineState) (f : ℚ) (m : ℕ)
    (hs : s.amplitude = m * release_ramp_speed (50 * (k : ℚ))) (hm : m < 153 * k) :
    ∃ m' : ℕ, (next_state (50 * (k : ℚ)) s f).amplitude
        = m' * release_ramp_speed (50 * (k : ℚ)) ∧ m' < 153 * k := by
  have hkq : (0 : ℚ) < (k : ℚ) := by exact_mod_cast hk
  have hrs : release_ramp_speed (50 * (k : ℚ)) = 1 / (300 * (k : ℚ)) :=
    release_ramp_speed_50k k hk
  by_cases hf : f > 0
  · rw [next_state_amplitude_of_pos _ _ _ hf]
    by_cases hlt : s.amplitude < target_amplitude
    · refine ⟨m + 3 * k, ?_, ?_⟩
      · rw [if_pos hlt, hs, ramp_speed_eq, hrs]
        push_cast
        field_simp
        ring
      · have hmlt : (m : ℚ) * (1 / (300 * (k : ℚ))) < 1 / 2 := by
          rw [← hrs, ← hs, ← target_amplitude_eq]
          exact hlt
        have : (m : ℚ) < 150 * (k : ℚ) := by
          have h300 : (0 : ℚ) < 300 * (k : ℚ) := by positivity
          rw [mul_one_div, div_lt_iff h300] at hmlt
          linarith
        have hmn : m < 150 * k := by exact_mod_cast this
        omega
    · exact ⟨m, by rw [if_neg hlt, hs], hm⟩
  · rw [next_state_amplitude_of_nonpos _ _ _ hf]
    by_cases hpos : 0 < s.amplitude
    · have hmpos : 0 < m := by
        by_contra hmz
        obtain rfl : m = 0 := by omega
        rw [hs] at hpos
        simp at hpos
      obtain ⟨m', rfl⟩ : ∃ m', m = m' + 1 := ⟨m - 1, by omega⟩
      refine ⟨m', ?_, by omega⟩
      rw [if_pos hpos, hs]
      push_cast
      ring
    · exact ⟨m, by rw [if_neg hpos, hs], hm⟩

lemma amp_reachable (k : ℕ) (hk : 0 < k) (fs : List ℚ) :
    ∃ m : ℕ, (run_engine (50 * (k : ℚ)) init_state fs).amplitude
        = m * release_ramp_speed (50 * (k : ℚ)) ∧ m < 153 * k := by
  suffices h : ∀ (l : List ℚ) (s : EngineState),
      (∃ m : ℕ, s.amplitude = m * release_ramp_speed (50 * (k : ℚ)) ∧ m < 153 * k) →
      ∃ m : ℕ, (run_engine (50 * (k : ℚ)) s l).amplitude
          = m * release_ramp_speed (50 * (k : ℚ)) ∧ m < 153 * k by
    exact h fs init_state ⟨0, by simp [init_state], by omega⟩
  intro l
  induction l with
  | nil => intro s hs; simpa [run_engine_nil] using hs
  | cons f l ih =>
      rintro s ⟨m, hs, hm⟩
      rw [run_engine_cons]
      exact ih _ (amp_inv_step k hk s f m hs hm)

/-! ### The phase accumulator -/

lemma rust_rem_eq_fract (x y : ℚ) (hx : 0 ≤ x) (hy : 0 < y) :
    rust_rem x y = y * Int.fract (x / y) := by
  rw [rust_rem, rat_trunc, if_pos (by positivity), Int.fract]
  rw [mul_sub, mul_comm y (x / y), div_mul_cancel₀ _ hy.ne']

lemma clock_run (n : ℚ) (hn : 0 < n) :
    ∀ (fs : List ℚ) (s : EngineState), 0 ≤ s.sample_clock → s.sample_clock < n →
      (run_engine n s fs).sample_clock
        = n * Int.fract ((s.sample_clock + fs.length) / n) := by
  intro fs
  induction fs with
  | nil =>
      intro s h0 h1
      rw [run_engine_nil]
      simp only [List.length_nil, Nat.cast_zero, add_zero]
      rw [Int.fract_eq_self.mpr ⟨by positivity, (div_lt_one hn).mpr h1⟩,
        mul_comm, div_mul_cancel₀ _ hn.ne']
  | cons f fs ih =>
      intro s h0 h1
      have hc : (next_state n s f).sample_clock
          = n * Int.fract ((s.sample_clock + 1) / n) := by
        rw [next_state_clock, rust_rem_eq_fract _ _ (by linarith) hn]
      have hc0 : 0 ≤ (next_state n s f).sample_clock := by
        rw [hc]
        have := Int.fract_nonneg ((s.sample_clock + 1) / n)
        positivity
      have hc1 : (next_state n s f).sample_clock < n := by
        rw [hc]
        calc n * Int.fract ((s.sample_clock + 1) / n) < n * 1 :=
              (mul_lt_mul_left hn).mpr (Int.fract_lt_one _)
          _ = n := mul_one n
      rw [run_engine_cons, ih _ hc0 hc1, hc]
      have hsplit : (n * Int.fract ((s.sample_clock + 1) / n) + (fs.length : ℚ)) / n
          = Int.fract ((s.sample_clock + 1) / n) + (fs.length : ℚ) / n := by
        rw [add_div, mul_div_cancel_left₀ _ hn.ne']
      have hfr : Int.fract ((s.sample_clock + 1) / n) + (fs.length : ℚ) / n
          = ((s.sample_clock + 1) / n + (fs.length : ℚ) / n)
            - (⌊(s.sample_clock + 1) / n⌋ : ℤ) := by
        rw [Int.fract]
        ring
      have harg : (s.sample_clock + 1) / n + (fs.length : ℚ) / n
          = (s.sample_clock + ((fs.length : ℚ) + 1)) / n := by
        rw [div_add_div_same]
        ring_nf
      rw [hsplit, hfr, harg, Int.fract_sub_int]
      congr 2
      push_cast [List.length_cons]
      ring

/-! ### The frequency calculator -/

lemma find_note (note : String) (pc : ℤ) (h : (note, pc) ∈ NOTE_MAPPING) :
    NOTE_MAPPING.find? (fun p => p.1 == note) = some (note, pc) := by
  fin_cases h <;> rfl

lemma find_note_none (note : String) (h : ∀ pc : ℤ, (note, pc) ∉ NOTE_MAPPING) :
    NOTE_MAPPING.find? (fun p => p.1 == note) = none := by
  rw [List.find?_eq_none]
  intro p hp hbeq
  have hfst : p.1 = note := by
    simpa using hbeq
  exact h p.2 (by rw [← hfst]; simpa using hp)

lemma note_to_frequency_of_mem (note : String) (pc : ℤ) (octave : ℤ)
    (h : (note, pc) ∈ NOTE_MAPPING) :
    note_to_frequency note octave = midi_to_freq (12 * (octave + 1) + pc) := by
  rw [note_to_frequency, find_note note pc h]
  rfl

lemma note_to_frequency_of_not_mem (note : String) (octave : ℤ)
    (h : ∀ pc : ℤ, (note, pc) ∉ NOTE_MAPPING) :
    note_to_frequency note octave = midi_to_freq (12 * (octave + 1)) := by
  rw [note_to_frequency, find_note_none note h]
  simp

lemma two_rpow_neg_three_quarter_bounds :
    (0.5946 : ℝ) < (2:ℝ) ^ ((-3/4 : ℝ)) ∧ (2:ℝ) ^ ((-3/4 : ℝ)) < 0.59463 := by
  have hy : (0:ℝ) < (2:ℝ) ^ ((-3/4 : ℝ)) := Real.rpow_pos_of_pos (by norm_num) _
  have h4 : ((2:ℝ) ^ ((-3/4 : ℝ))) ^ (4:ℕ) = 1/8 := by
    rw [← Real.rpow_natCast ((2:ℝ) ^ ((-3/4:ℝ))) 4, ← Real.rpow_mul (by norm_num)]
    rw [show ((-3:ℝ)/4 * (4:ℕ)) = ((-3 : ℤ) : ℝ) by push_cast; ring, Real.rpow_intCast]
    norm_num
  constructor
  · by_contra hle
    push_neg at hle
    have h := pow_le_pow_left₀ hy.le hle 4
    rw [h4] at h
    norm_num at h
  · by_contra hle
    push_neg at hle
    have h := pow_le_pow_left₀ (by norm_num : (0:ℝ) ≤ 0.59463) hle 4
    rw [h4] at h
    norm_num at h

/-! ### Shared concrete computation: a note re-pressed during release at rate 100 -/

lemma repress_amp_100 :
    (run_engine 100 init_state (List.replicate 50 1 ++ [0, 1])).amplitude = 61 / 120 := by
  have h1 : (run_engine 100 init_state (List.replicate 50 1)).amplitude = 1 / 2 := by
    rw [run_engine_amplitude_all_pos 100 _ (fun f hf => by
      rw [List.eq_of_mem_replicate hf]; norm_num)]
    norm_num [List.length_replicate]
  rw [run_engine_append,
    show ([0, 1] : List ℚ) = 0 :: 1 :: [] from rfl,
    run_engine_cons, run_engine_cons, run_engine_nil]
  have h2 : (next_state 100 (run_engine 100 init_state (List.replicate 50 1)) 0).amplitude
      = 299 / 600 := by
    rw [next_state_amplitude_of_nonpos _ _ _ (by norm_num),
      if_pos (by rw [h1]; norm_num), h1]
    norm_num [release_ramp_speed, target_amplitude, RELEASE_TIME_SECONDS]
  rw [next_state_amplitude_of_pos _ _ _ (by norm_num : (0:ℚ) < 1),
    if_pos (by rw [h2, target_amplitude_eq]; norm_num), h2, ramp_speed_eq]
  norm_num

/-- C1 (counterexample): the amplitude does NOT stay within [0, targetAmplitude].
At sample rate 100, holding a note for 50 steps, releasing for one step and
re-pressing for one step leaves the amplitude at 61/120 > 1/2 = targetAmplitude. -/
theorem amplitude_exceeds_target_cex :
    ¬ ((run_engine 100 init_state (List.replicate 50 1 ++ [0, 1])).amplitude ≤ target_amplitude) := by
  rw [repress_amp_100, target_amplitude_eq]
  norm_num

/-- C1 (amended): for every sample rate that is a positive multiple of 50 Hz and
every sequence of per-step frequency reads, the amplitude starting from 0 stays
within [0, targetAmplitude + attackStep): it is never negative, but a note
re-pressed during release can push it above targetAmplitude by up to one attack
step. -/
theorem amplitude_stays_in_bounds (k : ℕ) (hk : 0 < k) (fs : List ℚ) :
    0 ≤ (run_engine (50 * (k : ℚ)) init_state fs).amplitude ∧
    (run_engine (50 * (k : ℚ)) init_state fs).amplitude < target_amplitude + ramp_speed := by
  obtain ⟨m, hm, hmlt⟩ := amp_reachable k hk fs
  have hkq : (0:ℚ) < (k:ℚ) := by exact_mod_cast hk
  rw [hm, release_ramp_speed_50k k hk]
  constructor
  · positivity
  · rw [target_amplitude_eq, ramp_speed_eq]
    have hmq : (m:ℚ) < 153 * (k:ℚ) := by exact_mod_cast hmlt
    have h1 : (m:ℚ) * (1/(300*(k:ℚ))) < (153*(k:ℚ)) * (1/(300*(k:ℚ))) :=
      mul_lt_mul_of_pos_right hmq (by positivity)
    have h2 : (153*(k:ℚ)) * (1/(300*(k:ℚ))) = 51/100 := by
      field_simp
      ring
    rw [h2] at h1
    linarith

/-- C1 (witness): the bounds hold concretely at sample rate 50 with no events. -/
theorem amplitude_stays_in_bounds_witness :
    0 ≤ (run_engine (50 * ((1:ℕ) : ℚ)) init_state []).amplitude ∧
    (run_engine (50 * ((1:ℕ) : ℚ)) init_state []).amplitude < target_amplitude + ramp_speed :=
  amplitude_stays_in_bounds 1 (by norm_num) []

/-- C2 (counterexample): the amplitude does NOT always reach 0 within
`ceil(releaseTimeSeconds * sampleRate)` release steps.  At sample rate 100
(so `ceil(3 * 100) = 300`), after holding a note 50 steps, releasing one step
and re-pressing one step, 300 further release steps leave amplitude 1/120 ≠ 0. -/
theorem release_not_done_in_time_cex :
    (run_engine 100 init_state
        (List.replicate 50 1 ++ [0, 1] ++ List.replicate 300 0)).amplitude ≠ 0 := by
  rw [run_engine_append]
  have hm : (run_engine 100 init_state (List.replicate 50 1 ++ [0, 1])).amplitude
      = (305 : ℕ) * release_ramp_speed 100 := by
    rw [repress_amp_100]
    norm_num [release_ramp_speed, target_amplitude, RELEASE_TIME_SECONDS]
  rw [run_engine_drain_exact 100 (by norm_num) 300 _ 305 hm (by norm_num)]
  norm_num [release_ramp_speed, target_amplitude, RELEASE_TIME_SECONDS]

/-- C2 (amended): for every sample rate that is a positive multiple of 50 Hz,
once the requested frequency stays 0 the amplitude reaches exactly 0 within
`ceil((targetAmplitude + attackStep) / targetAmplitude * releaseTimeSeconds *
sampleRate) = 3.06 * sampleRate` engine steps — the slack over the claimed
`3 * sampleRate` covers the possible overshoot above targetAmplitude — and it
remains exactly 0 on every later step while no new note is requested. -/
theorem release_reaches_zero (k : ℕ) (hk : 0 < k) (fs : List ℚ) (j : ℕ)
    (hj : 153 * k ≤ j) :
    (run_engine (50 * (k : ℚ)) init_state (fs ++ List.replicate j 0)).amplitude = 0 := by
  obtain ⟨m, hm, hmlt⟩ := amp_reachable k hk fs
  have hkq : (0:ℚ) < (k:ℚ) := by exact_mod_cast hk
  rw [run_engine_append]
  exact run_engine_drain_zero _ (by linarith) j _ m hm (by omega)

/-- C2 (witness): at sample rate 50, after no events, 153 release steps give
amplitude exactly 0. -/
theorem release_reaches_zero_witness :
    (run_engine (50 * ((1:ℕ) : ℚ)) init_state ([] ++ List.replicate 153 0)).amplitude = 0 :=
  release_reaches_zero 1 (by norm_num) [] 153 (by norm_num)

/-- C3 (confirmed): while the requested frequency is strictly positive on every
step, the amplitude from its initial value 0 after `j` steps is exactly
`min (j * attackStep) targetAmplitude`: it increases by attackStep = 1/100 on
each of the first 50 steps, reaches targetAmplitude = 1/2 exactly at step 50,
and stays constant at targetAmplitude on every later step with the note held. -/
theorem amplitude_attack_ramp (sr : ℚ) (fs : List ℚ) (hfs : ∀ f ∈ fs, 0 < f)
    (j : ℕ) (hj : j ≤ fs.length) :
    (run_engine sr init_state (fs.take j)).amplitude = min ((j : ℚ) / 100) (1 / 2) := by
  rw [run_engine_amplitude_all_pos sr _ (fun f hf => hfs f (List.mem_of_mem_take hf)),
    List.length_take, min_eq_left hj]

/-- C3 (witness): held for 60 steps at rate 100, the amplitude is
min (60/100) (1/2) = targetAmplitude. -/
theorem amplitude_attack_ramp_witness :
    (run_engine 100 init_state ((List.replicate 60 (220:ℚ)).take 60)).amplitude
      = min ((60 : ℚ) / 100) (1 / 2) :=
  amplitude_attack_ramp 100 (List.replicate 60 220)
    (fun f hf => by rw [List.eq_of_mem_replicate hf]; norm_num) 60
    (by rw [List.length_replicate])

/-- C4 (confirmed): for every note string and every integer octave,
`note_to_frequency note octave = 440 * 2^((12*(octave+1) + pitchClass - 69)/12)`
where pitchClass is the note's entry in the note table when the name is present
and 0 (the C fallback) when it is absent; the function is total, so it always
returns a value and never an error. -/
theorem note_to_frequency_formula (note : String) (octave : ℤ) :
    (∀ pc : ℤ, (note, pc) ∈ NOTE_MAPPING →
      note_to_frequency note octave
        = 440 * (2:ℝ) ^ ((((12 * (octave + 1) + pc : ℤ) : ℝ) - 69) / 12))
    ∧ ((∀ pc : ℤ, (note, pc) ∉ NOTE_MAPPING) →
      note_to_frequency note octave
        = 440 * (2:ℝ) ^ ((((12 * (octave + 1) + 0 : ℤ) : ℝ) - 69) / 12)) := by
  constructor
  · intro pc h
    rw [note_to_frequency_of_mem note pc octave h, midi_to_freq]
  · intro h
    rw [note_to_frequency_of_not_mem note octave h, midi_to_freq]
    norm_num

/-- C4 (witness): the formula instantiated at note "A", octave 4, pitch class 9. -/
theorem note_to_frequency_formula_witness :
    (("A", (9:ℤ)) ∈ NOTE_MAPPING) ∧
    note_to_frequency "A" 4
      = 440 * (2:ℝ) ^ ((((12 * ((4:ℤ) + 1) + 9 : ℤ) : ℝ) - 69) / 12) :=
  ⟨by simp [NOTE_MAPPING], (note_to_frequency_formula "A" 4).1 9 (by simp [NOTE_MAPPING])⟩

/-- C5 (confirmed): `note_to_frequency "A" 4` is exactly 440, `"A" 3` is exactly
220, and `"C" 4` lies within 0.01 of 261.63. -/
theorem note_to_frequency_values :
    note_to_frequency "A" 4 = 440 ∧ note_to_frequency "A" 3 = 220 ∧
    |note_to_frequency "C" 4 - 261.63| ≤ 0.01 := by
  refine ⟨?_, ?_, ?_⟩
  · rw [show note_to_frequency "A" 4 = midi_to_freq 69 by
      rw [note_to_frequency_of_mem "A" 9 4 (by simp [NOTE_MAPPING])]; norm_num]
    rw [midi_to_freq, show ((((69:ℤ):ℝ)) - 69) / 12 = 0 by norm_num, Real.rpow_zero]
    norm_num
  · rw [show note_to_frequency "A" 3 = midi_to_freq 57 by
      rw [note_to_frequency_of_mem "A" 9 3 (by simp [NOTE_MAPPING])]; norm_num]
    rw [midi_to_freq, show ((((57:ℤ):ℝ)) - 69) / 12 = ((-1:ℤ):ℝ) by norm_num,
      Real.rpow_intCast]
    norm_num
  · rw [show note_to_frequency "C" 4 = midi_to_freq 60 by
      rw [note_to_frequency_of_mem "C" 0 4 (by simp [NOTE_MAPPING])]; norm_num]
    rw [midi_to_freq, show ((((60:ℤ):ℝ)) - 69) / 12 = (-3/4 : ℝ) by norm_num]
    obtain ⟨hlo, hhi⟩ := two_rpow_neg_three_quarter_bounds
    rw [abs_le]
    constructor <;> linarith

/-- C6 (confirmed): on a step where the frequency read is 0 the emitted sample
is exactly 0 whatever the current state (in particular whatever the amplitude):
`sin(clock * 0 * 2π / sampleRate) = sin 0 = 0`, so release silences the output
immediately instead of fading out the last held pitch. -/
theorem sample_zero_when_freq_zero (sr : ℚ) (s : EngineState) :
    sample_value sr s 0 = 0 := by
  simp [sample_value]

/-- C7 (confirmed): the phase accumulator (which advances by 1 and wraps by the
`% sampleRate` in the source) stays in [0, sampleRate) on every prefix of the
run, and from any starting phase in [0, sampleRate) it returns to exactly that
value after sampleRate consecutive steps. -/
theorem phase_wraps (n : ℕ) (hn : 0 < n) (s : EngineState)
    (h0 : 0 ≤ s.sample_clock) (h1 : s.sample_clock < (n : ℚ)) (fs : List ℚ) :
    (∀ j, j ≤ fs.length →
       0 ≤ (run_engine (n : ℚ) s (fs.take j)).sample_clock ∧
       (run_engine (n : ℚ) s (fs.take j)).sample_clock < (n : ℚ))
    ∧ (fs.length = n → (run_engine (n : ℚ) s fs).sample_clock = s.sample_clock) := by
  have hnq : (0:ℚ) < (n:ℚ) := by exact_mod_cast hn
  constructor
  · intro j hj
    rw [clock_run _ hnq _ _ h0 h1]
    constructor
    · have := Int.fract_nonneg ((s.sample_clock + (((fs.take j).length : ℕ) : ℚ)) / n)
      positivity
    · have hfr := Int.fract_lt_one ((s.sample_clock + (((fs.take j).length : ℕ) : ℚ)) / n)
      have hlt := (mul_lt_mul_left hnq).mpr hfr
      simpa using hlt
  · intro hlen
    rw [clock_run _ hnq _ _ h0 h1, hlen]
    have harg : (s.sample_clock + (n:ℚ)) / n = s.sample_clock / n + ((1:ℤ):ℚ) := by
      rw [add_div, div_self hnq.ne']
      norm_num
    rw [harg, Int.fract_add_int,
      Int.fract_eq_self.mpr ⟨by positivity, (div_lt_one hnq).mpr h1⟩,
      mul_comm, div_mul_cancel₀ _ hnq.ne']

/-- C7 (witness): at sample rate 2, starting phase 1/2, two held steps bring the
phase back to 1/2. -/
theorem phase_wraps_witness :
    (run_engine ((2:ℕ) : ℚ)
        { amplitude := 0, releasing := false, sample_clock := 1/2 } [5, 5]).sample_clock
      = 1/2 :=
  (phase_wraps 2 (by norm_num)
    { amplitude := 0, releasing := false, sample_clock := 1/2 }
    (by norm_num) (by norm_num) [5, 5]).2 rfl

/-- C8 (confirmed): `current_octave` starts at 3 and every key event keeps it in
[0, 8]; the octave-up key at 8 leaves it at 8 and the octave-down key at 0
leaves it at 0 (and key handling is total, so neither is ever an error). -/
theorem octave_bounded (s : DispatchState) (ev : KeyEv)
    (h0 : 0 ≤ s.current_octave) (h8 : s.current_octave ≤ 8) :
    init_dispatch.current_octave = 3
    ∧ (0 ≤ (handle_key ev s).current_octave ∧ (handle_key ev s).current_octave ≤ 8)
    ∧ (s.current_octave = 8 → (handle_key (KeyEv.char 'x') s).current_octave = 8)
    ∧ (s.current_octave = 0 → (handle_key (KeyEv.char 'z') s).current_octave = 0) := by
  refine ⟨rfl, ?_, ?_, ?_⟩
  · cases ev with
    | esc => exact ⟨h0, h8⟩
    | other => exact ⟨h0, h8⟩
    | char c =>
        unfold handle_key
        split
        · exact ⟨h0, h8⟩
        · constructor <;> dsimp <;> split <;> omega
        · constructor <;> dsimp <;> split <;> omega
        · split
          · exact ⟨h0, h8⟩
          · exact ⟨h0, h8⟩
        · exact ⟨h0, h8⟩
        · exact ⟨h0, h8⟩
  · intro h
    show (if s.current_octave < 8 then s.current_octave + 1 else s.current_octave) = 8
    rw [h]
    norm_num
  · intro h
    show (if s.current_octave > 0 then s.current_octave - 1 else s.current_octave) = 0
    rw [h]
    norm_num

/-- C8 (witness): the bounds at the initial dispatcher state under octave-up. -/
theorem octave_bounded_witness :
    init_dispatch.current_octave = 3
    ∧ (0 ≤ (handle_key (KeyEv.char 'x') init_dispatch).current_octave ∧
        (handle_key (KeyEv.char 'x') init_dispatch).current_octave ≤ 8)
    ∧ (init_dispatch.current_octave = 8 →
        (handle_key (KeyEv.char 'x') init_dispatch).current_octave = 8)
    ∧ (init_dispatch.current_octave = 0 →
        (handle_key (KeyEv.char 'z') init_dispatch).current_octave = 0) :=
  octave_bounded init_dispatch (KeyEv.char 'x') (by norm_num [init_dispatch])
    (by norm_num [init_dispatch])

/-- C9 (confirmed): the octave-down key 'z' and the octave-up key 'x' leave the
shared requested frequency untouched — they modify only `current_octave` — so a
sounding note keeps its pitch across octave changes until a note key is next
pressed. -/
theorem octave_keys_preserve_frequency (s : DispatchState) :
    (handle_key (KeyEv.char 'z') s).frequency = s.frequency ∧
    (handle_key (KeyEv.char 'x') s).frequency = s.frequency :=
  ⟨rfl, rfl⟩

lemma next_state_nr_eq (sr : ℚ) (a c : ℚ) (b : Bool) (f : ℚ) :
    next_state_nr sr { amplitude := a, sample_clock := c } f
      = { amplitude := (next_state sr { amplitude := a, releasing := b, sample_clock := c } f).amplitude,
          sample_clock := (next_state sr { amplitude := a, releasing := b, sample_clock := c } f).sample_clock } := by
  by_cases h : f > 0 <;> simp [next_state, next_state_nr, h]

lemma sample_value_nr_eq (sr : ℚ) (a c : ℚ) (b : Bool) (f : ℚ) :
    sample_value_nr sr { amplitude := a, sample_clock := c } f
      = sample_value sr { amplitude := a, releasing := b, sample_clock := c } f := by
  rw [sample_value, sample_value_nr, next_state_nr_eq sr a c b f]

/-- C10 (confirmed): the `releasing` flag is unobservable.  For every sample
rate, every initial amplitude, phase and flag value, and every sequence of
frequency reads, the sample trace of the source engine equals that of the
engine with the `releasing` flag and its updates removed: the output depends
only on the frequency history, the phase and the amplitude. -/
theorem releasing_flag_unobservable (sr : ℚ) (fs : List ℚ) :
    ∀ (a c : ℚ) (b : Bool),
      sample_trace sr { amplitude := a, releasing := b, sample_clock := c } fs
        = sample_trace_nr sr { amplitude := a, sample_clock := c } fs := by
  induction fs with
  | nil => intro a c b; rfl
  | cons f fs ih =>
      intro a c b
      rw [sample_trace, sample_trace_nr, sample_value_nr_eq sr a c b f,
        next_state_nr_eq sr a c b f]
      exact congrArg (List.cons _) (ih _ _ _)
